import Mathlib

/-!
Verification of the fuzzy name-resolution and cache core of the
test-collateral Jenkins CLI (src/jenkins_cli/test_collateral.py).

Python strings are modelled as `List Char`; Python's `s.lower()` is
`lowerStr`, `a in b` (substring test) is `List.IsInfix`, `startswith` is
`List.IsPrefix`, `endswith` is `List.IsSuffix`, `min(l, key=len)` /
`max(l, key=len)` are `pyMin` / `pyMax` (first extremum wins, as in
Python), and `s.replace(pat, '')` is `removeAll pat s` (removes every
non-overlapping occurrence, scanning left to right).
-/

/-- A Python string, modelled as its list of characters. -/
abbrev Str := List Char

/-- Coerce a Lean string literal to the `Str` model. -/
def strL (s : String) : Str := s.data

/-- Python `s.lower()` (the sources only use ASCII names). -/
def lowerStr (s : Str) : Str := s.map Char.toLower

/-- The literal `"dev"`, the default branch name. -/
def devStr : Str := strL "dev"

/-- Python `a.lower() == b.lower()`. -/
def eqCI (a b : Str) : Bool := decide (lowerStr a = lowerStr b)

/-- Python `needle.lower() in hay.lower()` (substring containment). -/
def containsCI (hay needle : Str) : Bool := decide (lowerStr needle <:+: lowerStr hay)

/-- Python `s.lower().startswith(p.lower())`. -/
def startsWithCI (s p : Str) : Bool := decide (lowerStr p <+: lowerStr s)

/-- Python `min(x :: ys, key=len)`: the first element of minimal length
(`min` only replaces its current best on a strictly smaller key). -/
def pyMin (x : Str) : List Str → Str
  | [] => x
  | y :: ys => pyMin (if y.length < x.length then y else x) ys

/-- Python `max(x :: ys, key=len)`: the first element of maximal length
(`max` only replaces its current best on a strictly larger key). -/
def pyMax (x : Str) : List Str → Str
  | [] => x
  | y :: ys => pyMax (if x.length < y.length then y else x) ys

/-- `m` is the first element of `l` of minimal length: everything before it
is strictly longer, everything after it is no shorter. -/
def FirstMinLen (m : Str) (l : List Str) : Prop :=
  ∃ l1 l2, l = l1 ++ m :: l2 ∧ (∀ y ∈ l1, m.length < y.length) ∧ ∀ y ∈ l2, m.length ≤ y.length

/-- `m` is the first element of `l` of maximal length: everything before it
is strictly shorter, everything after it is no longer. -/
def FirstMaxLen (m : Str) (l : List Str) : Prop :=
  ∃ l1 l2, l = l1 ++ m :: l2 ∧ (∀ y ∈ l1, y.length < m.length) ∧ ∀ y ∈ l2, y.length ≤ m.length

/-- Residual tie-break used by the cached-branch tier of
`find_matching_branch` (source line 345: `return matches[0]`). -/
def headResidual : List Str → Option Str := List.head?

/-- Residual tie-break used by `find_matching_service` (line 231) and the
fallback tier of `find_matching_branch` (line 374):
`return min(matches, key=len)`, `None` when there are no matches. -/
def minLenResidual : List Str → Option Str
  | [] => none
  | x :: xs => some (pyMin x xs)

/-- The shared matching cascade of `find_matching_service`
(test_collateral.py lines 209-234) and each of the two tiers of
`find_matching_branch` (lines 325-347 and 352-374): first exact
case-insensitive match, else the substring matches; a unique substring
match wins, else the first match starting with the query, else the
tier's residual tie-break applied to the substring matches. -/
def tierResolve (residual : List Str → Option Str) (cands : List Str) (p : Str) : Option Str :=
  match cands.find? (fun s => eqCI s p) with
  | some s => some s
  | none =>
    let ms := cands.filter (fun s => containsCI s p)
    if ms.length = 1 then ms.head?
    else
      match ms.find? (fun s => startsWithCI s p) with
      | some s => some s
      | none => residual ms

/-- `find_matching_service` (test_collateral.py lines 204-234). -/
def find_matching_service (p : Str) (avail : List Str) : Option Str :=
  if p = [] ∨ avail = [] then none
  else tierResolve minLenResidual avail p

/-- The fixed fallback branch list of `get_available_branches`
(test_collateral.py line 287). -/
def default_branches : List Str :=
  [strL "dev", strL "main", strL "master", strL "develop", strL "release"]

/-- `find_matching_branch` (test_collateral.py lines 317-377), with the
cached history and the fallback branch list passed explicitly. Empty
query: the default `"dev"`; then the cascade over the cache (residual:
first, i.e. most recent); then the cascade over the fallback list
(residual: shortest); finally the query itself, unchanged. -/
def find_matching_branch (cached fallback : List Str) (p : Str) : Str :=
  if p = [] then devStr
  else
    match tierResolve headResidual cached p with
    | some b => b
    | none =>
      match tierResolve minLenResidual fallback p with
      | some b => b
      | none => p

/-- The job-name literal `"test-collateral-"` (already lowercase). -/
def tcPrefix : Str := strL "test-collateral-"

/-- The job-name literal `"-build"` (already lowercase). -/
def buildSuffix : Str := strL "-build"

/-- The pre-filter of the `build` command (test_collateral.py lines
748-751): jobs whose lowercased name contains `"build"` and does not end
in `"-report"`. -/
def filter_build_jobs (jobs : List Str) : List Str :=
  jobs.filter (fun j => containsCI j (strL "build") && !(decide (strL "-report" <:+ lowerStr j)))

/-- Job selection of the `build` command (test_collateral.py lines
757-823): keep the jobs whose lowercased name contains the lowercased
query; with several matches narrow to the exact matches, else to those
starting with `"test-collateral-" ++ query`, else to those starting with
the query; return the first job of the narrowed list. -/
def select_build_job (buildJobs : List Str) (q : Str) : Option Str :=
  let search := lowerStr q
  let matching := buildJobs.filter (fun j => decide (search <:+: lowerStr j))
  match matching with
  | [] => none
  | [j] => some j
  | _ :: _ :: _ =>
    let ex := matching.filter (fun j => decide (lowerStr j = search))
    (if ex ≠ [] then ex
     else
       let pre := matching.filter (fun j => decide ((tcPrefix ++ search) <+: lowerStr j))
       if pre ≠ [] then pre
       else
         let st := matching.filter (fun j => decide (search <+: lowerStr j))
         if st ≠ [] then st else matching).head?

/-- Python `s.replace(pat, '')` with `fuel` bounding the number of scanned
positions: at each position, if `pat` (nonempty) starts there, skip it and
continue after it; otherwise keep the character and move on. -/
def removeAllAux (pat : Str) : Nat → Str → Str
  | _, [] => []
  | 0, s => s
  | n + 1, c :: rest =>
    if !pat.isEmpty && pat.isPrefixOf (c :: rest) then
      removeAllAux pat n (List.drop (pat.length - 1) rest)
    else
      c :: removeAllAux pat n rest

/-- Python `s.replace(pat, '')`: remove every non-overlapping occurrence
of `pat`, scanning left to right (`s.length` positions suffice). -/
def removeAll (pat s : Str) : Str := removeAllAux pat s.length s

/-- Service extraction of the `build` command (test_collateral.py lines
833-849): the catalog entries occurring (case-sensitively) in the job
name; if any, Python `max(matched, key=len)`; otherwise, when the job
name starts with `"test-collateral-"`, the job name with
`.replace('test-collateral-', '').replace('-build', '')` applied;
otherwise the job name itself. -/
def extract_service (jobName : Str) (catalog : List Str) : Str :=
  let matched := catalog.filter (fun s => decide (s <:+: jobName))
  match matched with
  | m :: ms => pyMax m ms
  | [] =>
    if tcPrefix <+: jobName then removeAll buildSuffix (removeAll tcPrefix jobName)
    else jobName

/-- `add_branch_to_cache` (test_collateral.py lines 144-161), with the
persisted history passed and returned explicitly: `"dev"` in any casing
is never stored; otherwise remove the (case-sensitively) equal entry if
present, insert at the front and keep the first 50 entries. -/
def add_branch_to_cache (branch : Str) (cached : List Str) : List Str :=
  if lowerStr branch = devStr then cached
  else
    let c := if branch ∈ cached then cached.erase branch else cached
    (branch :: c).take 50

/-- A sequence of `add_branch_to_cache` calls, oldest first. -/
def touch_seq (ns : List Str) (init : List Str) : List Str :=
  ns.foldl (fun acc n => add_branch_to_cache n acc) init

/-- The Branch History invariants of the spec: at most 50 entries, no
entry equal to `"dev"` case-insensitively, no duplicates. -/
abbrev BranchInv (l : List Str) : Prop :=
  l.length ≤ 50 ∧ (∀ b ∈ l, lowerStr b ≠ devStr) ∧ l.Nodup

/-- The persisted job-cache record as `load_jobs_cache` can encounter
it: absent (`os.path.exists` is false); present but unreadable, where
`open()` raises an `OSError` such as `PermissionError`, which the
function's `except` clause does not list; present and readable but
unparseable, where `json.load`, the `['timestamp']` / `['jobs']`
lookups or `datetime.fromisoformat` raise one of the caught
`JSONDecodeError` / `KeyError` / `ValueError`; or a well-formed
timestamped payload (`{"timestamp": ..., "jobs": ...}`). -/
inductive JobsStore (α : Type) where
  | missing : JobsStore α
  | unreadable : JobsStore α
  | unparseable : JobsStore α
  | record (timestamp : Int) (jobs : α) : JobsStore α
deriving DecidableEq

/-- Outcome of a Python call that may raise: either an uncaught
exception propagates, or the call returns (`none` models Python
`None`). -/
inductive LoadResult (α : Type) where
  | raised : LoadResult α
  | loaded (result : Option α) : LoadResult α
deriving DecidableEq

/-- `CACHE_DURATION_MINUTES` (test_collateral.py line 31). -/
def CACHE_DURATION_MINUTES : Int := 1440

/-- `load_jobs_cache` (test_collateral.py lines 66-82), with the store
and the current time (in minutes) passed explicitly. The `try` body
returns `None` for a missing file and for an expired record and the
payload otherwise; the `except (json.JSONDecodeError, KeyError,
ValueError)` clause turns an unparseable record into `None`; but an
`OSError` from `open()` on an existing unreadable file is not caught
and propagates. -/
def load_jobs_cache {α : Type} (st : JobsStore α) (now : Int) : LoadResult α :=
  match st with
  | .missing => .loaded none
  | .unreadable => .raised
  | .unparseable => .loaded none
  | .record t jobs =>
    if CACHE_DURATION_MINUTES < now - t then .loaded none else .loaded (some jobs)

/-- `save_jobs_cache` (test_collateral.py lines 84-95): overwrite the
record wholesale with the current time and the payload. -/
def save_jobs_cache {α : Type} (jobs : α) (now : Int) : JobsStore α :=
  .record now jobs

/-! Helper lemmas about the tie-break primitives. -/

theorem firstMinLen_le {m : Str} {l : List Str} (h : FirstMinLen m l) :
    ∀ y ∈ l, m.length ≤ y.length := by
  obtain ⟨l1, l2, rfl, h1, h2⟩ := h
  intro y hy
  rcases List.mem_append.1 hy with hy | hy
  · exact le_of_lt (h1 y hy)
  · rcases List.mem_cons.1 hy with rfl | hy
    · exact le_rfl
    · exact h2 y hy

theorem firstMinLen_mem {m : Str} {l : List Str} (h : FirstMinLen m l) : m ∈ l := by
  obtain ⟨l1, l2, rfl, _, _⟩ := h
  simp

theorem firstMaxLen_ge {m : Str} {l : List Str} (h : FirstMaxLen m l) :
    ∀ y ∈ l, y.length ≤ m.length := by
  obtain ⟨l1, l2, rfl, h1, h2⟩ := h
  intro y hy
  rcases List.mem_append.1 hy with hy | hy
  · exact le_of_lt (h1 y hy)
  · rcases List.mem_cons.1 hy with rfl | hy
    · exact le_rfl
    · exact h2 y hy

theorem pyMin_firstMinLen : ∀ (xs : List Str) (x : Str), FirstMinLen (pyMin x xs) (x :: xs) := by
  intro xs
  induction xs with
  | nil => exact fun x => ⟨[], [], rfl, by simp, by simp⟩
  | cons y ys ih =>
    intro x
    show FirstMinLen (pyMin (if y.length < x.length then y else x) ys) (x :: y :: ys)
    by_cases hlt : y.length < x.length
    · rw [if_pos hlt]
      obtain ⟨l1, l2, hdec, h1, h2⟩ := ih y
      refine ⟨x :: l1, l2, by rw [List.cons_append, ← hdec], ?_, h2⟩
      intro z hz
      rcases List.mem_cons.1 hz with rfl | hz
      · exact lt_of_le_of_lt (firstMinLen_le (ih y) y (by simp)) hlt
      · exact h1 z hz
    · rw [if_neg hlt]
      obtain ⟨l1, l2, hdec, h1, h2⟩ := ih x
      cases l1 with
      | nil =>
        simp only [List.nil_append] at hdec
        injection hdec with hx hl2
        refine ⟨[], y :: ys, by rw [← hx]; simp, by simp, ?_⟩
        intro z hz
        rw [← hx]
        rcases List.mem_cons.1 hz with rfl | hz
        · exact le_of_not_lt hlt
        · have := h2 z (hl2 ▸ hz)
          rwa [← hx] at this
      | cons a l1' =>
        simp only [List.cons_append] at hdec
        injection hdec with ha hys
        have hax : (pyMin x ys).length < x.length := by
          have := h1 a (by simp)
          rwa [← ha] at this
        refine ⟨x :: y :: l1', l2, by rw [List.cons_append, List.cons_append, ← hys], ?_, h2⟩
        intro z hz
        rcases List.mem_cons.1 hz with rfl | hz
        · exact hax
        rcases List.mem_cons.1 hz with rfl | hz
        · exact lt_of_lt_of_le hax (le_of_not_lt hlt)
        · exact h1 z (by simp [hz])

theorem pyMax_firstMaxLen : ∀ (xs : List Str) (x : Str), FirstMaxLen (pyMax x xs) (x :: xs) := by
  intro xs
  induction xs with
  | nil => exact fun x => ⟨[], [], rfl, by simp, by simp⟩
  | cons y ys ih =>
    intro x
    show FirstMaxLen (pyMax (if x.length < y.length then y else x) ys) (x :: y :: ys)
    by_cases hlt : x.length < y.length
    · rw [if_pos hlt]
      obtain ⟨l1, l2, hdec, h1, h2⟩ := ih y
      refine ⟨x :: l1, l2, by rw [List.cons_append, ← hdec], ?_, h2⟩
      intro z hz
      rcases List.mem_cons.1 hz with rfl | hz
      · exact lt_of_lt_of_le hlt (firstMaxLen_ge (ih y) y (by simp))
      · exact h1 z hz
    · rw [if_neg hlt]
      obtain ⟨l1, l2, hdec, h1, h2⟩ := ih x
      cases l1 with
      | nil =>
        simp only [List.nil_append] at hdec
        injection hdec with hx hl2
        refine ⟨[], y :: ys, by rw [← hx]; simp, by simp, ?_⟩
        intro z hz
        rw [← hx]
        rcases List.mem_cons.1 hz with rfl | hz
        · exact le_of_not_lt hlt
        · have := h2 z (hl2 ▸ hz)
          rwa [← hx] at this
      | cons a l1' =>
        simp only [List.cons_append] at hdec
        injection hdec with ha hys
        have hax : x.length < (pyMax x ys).length := by
          have := h1 a (by simp)
          rwa [← ha] at this
        refine ⟨x :: y :: l1', l2, by rw [List.cons_append, List.cons_append, ← hys], ?_, h2⟩
        intro z hz
        rcases List.mem_cons.1 hz with rfl | hz
        · exact hax
        rcases List.mem_cons.1 hz with rfl | hz
        · exact lt_of_le_of_lt (le_of_not_lt hlt) hax
        · exact h1 z (by simp [hz])

/-! Helper lemmas about the shared matching cascade. -/

theorem eqCI_containsCI {s p : Str} (h : eqCI s p = true) : containsCI s p = true := by
  simp only [eqCI, decide_eq_true_eq] at h
  simp only [containsCI, decide_eq_true_eq, h]
  exact ⟨[], [], by simp⟩

theorem head?_mem {l : List Str} {x : Str} (h : l.head? = some x) : x ∈ l := by
  cases l with
  | nil => simp at h
  | cons a t =>
    simp only [List.head?_cons, Option.some.injEq] at h
    simp [h]

theorem minLenResidual_firstMinLen {ms : List Str} {x : Str} (h : minLenResidual ms = some x) :
    FirstMinLen x ms := by
  cases ms with
  | nil => simp [minLenResidual] at h
  | cons a t =>
    simp only [minLenResidual, Option.some.injEq] at h
    exact h ▸ pyMin_firstMinLen t a

theorem tierResolve_exact {r : List Str → Option Str} {cands : List Str} {p s : Str}
    (h : cands.find? (fun s => eqCI s p) = some s) : tierResolve r cands p = some s := by
  unfold tierResolve
  rw [h]

theorem tierResolve_unique {r : List Str → Option Str} {cands : List Str} {p m : Str}
    (h1 : cands.find? (fun s => eqCI s p) = none)
    (h2 : cands.filter (fun s => containsCI s p) = [m]) : tierResolve r cands p = some m := by
  unfold tierResolve
  rw [h1]
  simp [h2]

theorem tierResolve_starts {r : List Str → Option Str} {cands : List Str} {p m : Str}
    (h1 : cands.find? (fun s => eqCI s p) = none)
    (h2 : (cands.filter (fun s => containsCI s p)).length ≠ 1)
    (h3 : (cands.filter (fun s => containsCI s p)).find? (fun s => startsWithCI s p) = some m) :
    tierResolve r cands p = some m := by
  unfold tierResolve
  rw [h1]
  simp only [if_neg h2, h3]

theorem tierResolve_residual {r : List Str → Option Str} {cands : List Str} {p : Str}
    (h1 : cands.find? (fun s => eqCI s p) = none)
    (h2 : (cands.filter (fun s => containsCI s p)).length ≠ 1)
    (h3 : (cands.filter (fun s => containsCI s p)).find? (fun s => startsWithCI s p) = none) :
    tierResolve r cands p = r (cands.filter (fun s => containsCI s p)) := by
  unfold tierResolve
  rw [h1]
  simp only [if_neg h2, h3]

theorem find_eqCI_of_filter_nil {cands : List Str} {p : Str}
    (h : cands.filter (fun s => containsCI s p) = []) :
    cands.find? (fun s => eqCI s p) = none := by
  rw [List.find?_eq_none]
  intro x hx hbx
  have hc : x ∈ cands.filter (fun s => containsCI s p) :=
    List.mem_filter.2 ⟨hx, eqCI_containsCI hbx⟩
  rw [h] at hc
  simp at hc

theorem tierResolve_nil_matches {r : List Str → Option Str} {cands : List Str} {p : Str}
    (h : cands.filter (fun s => containsCI s p) = []) :
    tierResolve r cands p = r [] := by
  have h1 := find_eqCI_of_filter_nil h
  unfold tierResolve
  rw [h1]
  simp [h]

theorem tierResolve_mem {r : List Str → Option Str} {cands : List Str} {p b : Str}
    (hr : ∀ ms x, r ms = some x → x ∈ ms) (h : tierResolve r cands p = some b) : b ∈ cands := by
  unfold tierResolve at h
  cases hf : cands.find? (fun s => eqCI s p) with
  | some s =>
    rw [hf] at h
    simp only [Option.some.injEq] at h
    exact h ▸ List.mem_of_find?_eq_some hf
  | none =>
    rw [hf] at h
    simp only at h
    split at h
    · exact List.mem_of_mem_filter (head?_mem h)
    · cases hs : (cands.filter (fun s => containsCI s p)).find? (fun s => startsWithCI s p) with
      | some s =>
        rw [hs] at h
        simp only [Option.some.injEq] at h
        exact List.mem_of_mem_filter (h ▸ List.mem_of_find?_eq_some hs)
      | none =>
        rw [hs] at h
        exact List.mem_of_mem_filter (hr _ _ h)

/-! Claim theorems: service mode. -/

/-- C2: service-mode resolution implements the five-step cascade. For a
non-empty candidate list `C` and non-empty query `p`: the first
case-insensitively equal element is returned; otherwise a unique
case-insensitive substring match is returned, else the first substring
match starting with `p`, else the shortest substring match with ties
broken by original order; with no substring match the result is `None`,
and resolving any `p` against the empty candidate list yields `None`. -/
theorem service_mode_cascade (p : Str) (C : List Str) :
    find_matching_service p [] = none
  ∧ (p ≠ [] → C ≠ [] →
      (∀ m, C.find? (fun s => eqCI s p) = some m → find_matching_service p C = some m)
    ∧ (∀ m, C.find? (fun s => eqCI s p) = none →
        C.filter (fun s => containsCI s p) = [m] → find_matching_service p C = some m)
    ∧ (∀ m, C.find? (fun s => eqCI s p) = none →
        (C.filter (fun s => containsCI s p)).length ≠ 1 →
        (C.filter (fun s => containsCI s p)).find? (fun s => startsWithCI s p) = some m →
        find_matching_service p C = some m)
    ∧ (C.find? (fun s => eqCI s p) = none →
        2 ≤ (C.filter (fun s => containsCI s p)).length →
        (C.filter (fun s => containsCI s p)).find? (fun s => startsWithCI s p) = none →
        ∃ m, find_matching_service p C = some m ∧
          FirstMinLen m (C.filter (fun s => containsCI s p)))
    ∧ (C.filter (fun s => containsCI s p) = [] → find_matching_service p C = none)) := by
  constructor
  · simp [find_matching_service]
  intro hp hC
  have hfm : find_matching_service p C = tierResolve minLenResidual C p := by
    rw [find_matching_service, if_neg (by simp [hp, hC])]
  refine ⟨?_, ?_, ?_, ?_, ?_⟩
  · intro m hm
    rw [hfm, tierResolve_exact hm]
  · intro m h1 h2
    rw [hfm, tierResolve_unique h1 h2]
  · intro m h1 h2 h3
    rw [hfm, tierResolve_starts h1 h2 h3]
  · intro h1 h2 h3
    cases hms : C.filter (fun s => containsCI s p) with
    | nil => rw [hms] at h2; simp at h2
    | cons a t =>
      refine ⟨pyMin a t, ?_, hms ▸ pyMin_firstMinLen t a⟩
      rw [hfm, tierResolve_residual h1 (by omega) h3, hms]
      rfl
  · intro h
    rw [hfm, tierResolve_nil_matches h]
    rfl

/-- C2 witness: concrete instantiation; with candidates
`["alpha", "al"]` and query `"l"` there is no exact match, two substring
matches, none starting with `"l"`, and the shortest (`"al"`) wins. -/
theorem service_mode_cascade_witness :
    ∃ m, find_matching_service (strL "l") [strL "alpha", strL "al"] = some m ∧
      FirstMinLen m ([strL "alpha", strL "al"].filter
        (fun s => containsCI s (strL "l"))) :=
  ((service_mode_cascade (strL "l") [strL "alpha", strL "al"]).2 (by decide) (by decide)
    ).2.2.2.1 (by decide) (by decide) (by decide)

/-- C10: for every candidate list, including non-empty ones, service-mode
resolution with an empty query returns `None`: the guard
`if not partial_name or not available_services` rejects the empty query
before the substring cascade runs. -/
theorem service_mode_empty_query (C : List Str) : find_matching_service [] C = none := by
  simp [find_matching_service]

/-! Claim theorems: branch mode. -/

/-- C1: branch-mode resolution is two-tiered with asymmetric residual
tie-breaks. For a non-empty query, the cascade (exact, else unique
substring, else first substring match starting with the query) runs first
against the cached history, where a residual multi-match returns the
FIRST (most recent) match; only when the cache tier has no substring
candidate does the same cascade run against the fallback list, where a
residual multi-match returns the SHORTEST match. -/
theorem branch_mode_two_tier (cached fallback : List Str) (p : Str) (hp : p ≠ []) :
    (∀ b, cached.find? (fun s => eqCI s p) = some b →
      find_matching_branch cached fallback p = b)
  ∧ (∀ m, cached.find? (fun s => eqCI s p) = none →
      cached.filter (fun s => containsCI s p) = [m] →
      find_matching_branch cached fallback p = m)
  ∧ (∀ m, cached.find? (fun s => eqCI s p) = none →
      (cached.filter (fun s => containsCI s p)).length ≠ 1 →
      (cached.filter (fun s => containsCI s p)).find? (fun s => startsWithCI s p) = some m →
      find_matching_branch cached fallback p = m)
  ∧ (∀ m ms, cached.find? (fun s => eqCI s p) = none →
      cached.filter (fun s => containsCI s p) = m :: ms →
      (m :: ms).length ≠ 1 →
      (m :: ms).find? (fun s => startsWithCI s p) = none →
      find_matching_branch cached fallback p = m)
  ∧ (cached.filter (fun s => containsCI s p) = [] →
      (∀ b, fallback.find? (fun s => eqCI s p) = some b →
        find_matching_branch cached fallback p = b)
    ∧ (∀ m, fallback.find? (fun s => eqCI s p) = none →
        fallback.filter (fun s => containsCI s p) = [m] →
        find_matching_branch cached fallback p = m)
    ∧ (∀ m, fallback.find? (fun s => eqCI s p) = none →
        (fallback.filter (fun s => containsCI s p)).length ≠ 1 →
        (fallback.filter (fun s => containsCI s p)).find? (fun s => startsWithCI s p) = some m →
        find_matching_branch cached fallback p = m)
    ∧ (fallback.find? (fun s => eqCI s p) = none →
        2 ≤ (fallback.filter (fun s => containsCI s p)).length →
        (fallback.filter (fun s => containsCI s p)).find? (fun s => startsWithCI s p) = none →
        ∃ m, find_matching_branch cached fallback p = m ∧
          FirstMinLen m (fallback.filter (fun s => containsCI s p)))) := by
  have hfb : find_matching_branch cached fallback p =
      (match tierResolve headResidual cached p with
       | some b => b
       | none =>
         match tierResolve minLenResidual fallback p with
         | some b => b
         | none => p) := by
    rw [find_matching_branch, if_neg hp]
  refine ⟨?_, ?_, ?_, ?_, ?_⟩
  · intro b hb
    rw [hfb, tierResolve_exact hb]
  · intro m h1 h2
    rw [hfb, tierResolve_unique h1 h2]
  · intro m h1 h2 h3
    rw [hfb, tierResolve_starts h1 h2 h3]
  · intro m ms h1 h2 h3 h4
    have hres := tierResolve_residual (r := headResidual) h1
      (by rw [h2]; exact h3) (by rw [h2]; exact h4)
    rw [hfb, hres, h2]
    rfl
  · intro hnil
    have ht1 : tierResolve headResidual cached p = none := by
      rw [tierResolve_nil_matches hnil]
      rfl
    refine ⟨?_, ?_, ?_, ?_⟩
    · intro b hb
      rw [hfb, ht1, tierResolve_exact hb]
    · intro m h1 h2
      rw [hfb, ht1, tierResolve_unique h1 h2]
    · intro m h1 h2 h3
      rw [hfb, ht1, tierResolve_starts h1 h2 h3]
    · intro h1 h2 h3
      cases hms : fallback.filter (fun s => containsCI s p) with
      | nil => rw [hms] at h2; simp at h2
      | cons a t =>
        refine ⟨pyMin a t, ?_, hms ▸ pyMin_firstMinLen t a⟩
        rw [hfb, ht1, tierResolve_residual h1 (by omega) h3, hms]
        rfl

/-- C1 witness: with empty cached history and the fixed fallback list,
the query `"mai"` resolves to `"main"` (the unique substring match of the
fallback tier). -/
theorem branch_mode_two_tier_witness :
    find_matching_branch [] default_branches (strL "mai") = strL "main" :=
  (((branch_mode_two_tier [] default_branches (strL "mai") (by decide)).2.2.2.2
    (by decide)).2.1) (strL "main") (by decide) (by decide)

/-- C6: branch-mode resolution is total and never fails (the embedded
function is total by construction, so it always yields a concrete
string): the empty query returns the literal default `"dev"`; a non-empty
query matching nothing in the cached history nor in the fallback list is
returned unchanged; and the result is always `"dev"`, an element of the
cached history, an element of the fallback list, or the query itself. -/
theorem branch_mode_total (cached fallback : List Str) (p : Str) :
    find_matching_branch cached fallback [] = devStr
  ∧ (p ≠ [] → (∀ b ∈ cached, containsCI b p = false) →
      (∀ b ∈ fallback, containsCI b p = false) →
      find_matching_branch cached fallback p = p)
  ∧ (find_matching_branch cached fallback p = devStr
     ∨ find_matching_branch cached fallback p ∈ cached
     ∨ find_matching_branch cached fallback p ∈ fallback
     ∨ find_matching_branch cached fallback p = p) := by
  refine ⟨by rw [find_matching_branch, if_pos rfl], ?_, ?_⟩
  · intro hp hcache hfall
    have hc : cached.filter (fun s => containsCI s p) = [] :=
      List.filter_eq_nil_iff.2 fun b hb => by simp [hcache b hb]
    have hf : fallback.filter (fun s => containsCI s p) = [] :=
      List.filter_eq_nil_iff.2 fun b hb => by simp [hfall b hb]
    rw [find_matching_branch, if_neg hp, tierResolve_nil_matches hc,
      tierResolve_nil_matches hf]
    rfl
  · by_cases hp : p = []
    · subst hp
      exact Or.inl (by rw [find_matching_branch, if_pos rfl])
    · rw [find_matching_branch, if_neg hp]
      cases h1 : tierResolve headResidual cached p with
      | some b =>
        exact Or.inr (Or.inl (tierResolve_mem (fun ms x h => head?_mem h) h1))
      | none =>
        cases h2 : tierResolve minLenResidual fallback p with
        | some b =>
          exact Or.inr (Or.inr (Or.inl
            (tierResolve_mem (fun ms x h => firstMinLen_mem (minLenResidual_firstMinLen h)) h2)))
        | none => exact Or.inr (Or.inr (Or.inr rfl))

/-- C6 witness: the query `"zz"` matches nothing in the history
`["main"]` nor in the fallback `["release"]` and is returned unchanged. -/
theorem branch_mode_total_witness :
    find_matching_branch [strL "main"] [strL "release"] (strL "zz") = strL "zz" :=
  (branch_mode_total [strL "main"] [strL "release"] (strL "zz")).2.1
    (by decide) (by decide) (by decide)

/-! Claim theorems: job mode. -/

theorem singleton_filter_of_ne {p : Str → Bool} {j : Str} (h : [j].filter p ≠ []) :
    [j].filter p = [j] := by
  cases hd : p j with
  | false => exact absurd (by simp [List.filter_cons, hd]) h
  | true => simp [List.filter_cons, hd]

/-- C3: job-mode selection over the pre-filtered build jobs whose
lowercased name contains the query prefers an exact case-insensitive
match, else names starting with `"test-collateral-" ++ query`, else names
starting with the query, else the first candidate in original order; with
no containing candidate the selection fails. -/
theorem job_mode_selection (jobs : List Str) (q : Str) :
    ((jobs.filter fun j => decide (lowerStr q <:+: lowerStr j)) = [] →
      select_build_job jobs q = none)
  ∧ ∀ M, M = (jobs.filter fun j => decide (lowerStr q <:+: lowerStr j)) → M ≠ [] →
      ((M.filter fun j => decide (lowerStr j = lowerStr q)) ≠ [] →
        select_build_job jobs q = (M.filter fun j => decide (lowerStr j = lowerStr q)).head?)
    ∧ ((M.filter fun j => decide (lowerStr j = lowerStr q)) = [] →
        (M.filter fun j => decide ((tcPrefix ++ lowerStr q) <+: lowerStr j)) ≠ [] →
        select_build_job jobs q =
          (M.filter fun j => decide ((tcPrefix ++ lowerStr q) <+: lowerStr j)).head?)
    ∧ ((M.filter fun j => decide (lowerStr j = lowerStr q)) = [] →
        (M.filter fun j => decide ((tcPrefix ++ lowerStr q) <+: lowerStr j)) = [] →
        (M.filter fun j => decide (lowerStr q <+: lowerStr j)) ≠ [] →
        select_build_job jobs q = (M.filter fun j => decide (lowerStr q <+: lowerStr j)).head?)
    ∧ ((M.filter fun j => decide (lowerStr j = lowerStr q)) = [] →
        (M.filter fun j => decide ((tcPrefix ++ lowerStr q) <+: lowerStr j)) = [] →
        (M.filter fun j => decide (lowerStr q <+: lowerStr j)) = [] →
        select_build_job jobs q = M.head?) := by
  constructor
  · intro h
    simp only [select_build_job, h]
  · intro M hMeq hMne
    cases M with
    | nil => exact absurd rfl hMne
    | cons j1 M1 =>
      cases M1 with
      | nil =>
        have hs : select_build_job jobs q = some j1 := by
          simp only [select_build_job]
          rw [← hMeq]
        refine ⟨?_, ?_, ?_, ?_⟩
        · intro hE
          rw [hs, singleton_filter_of_ne hE]
          rfl
        · intro _ hP
          rw [hs, singleton_filter_of_ne hP]
          rfl
        · intro _ _ hS
          rw [hs, singleton_filter_of_ne hS]
          rfl
        · intro _ _ _
          rw [hs]
          rfl
      | cons j2 t =>
        have hs : select_build_job jobs q =
            (if ((j1 :: j2 :: t).filter fun j => decide (lowerStr j = lowerStr q)) ≠ [] then
               (j1 :: j2 :: t).filter fun j => decide (lowerStr j = lowerStr q)
             else if ((j1 :: j2 :: t).filter fun j =>
                 decide ((tcPrefix ++ lowerStr q) <+: lowerStr j)) ≠ [] then
               (j1 :: j2 :: t).filter fun j => decide ((tcPrefix ++ lowerStr q) <+: lowerStr j)
             else if ((j1 :: j2 :: t).filter fun j => decide (lowerStr q <+: lowerStr j)) ≠ [] then
               (j1 :: j2 :: t).filter fun j => decide (lowerStr q <+: lowerStr j)
             else j1 :: j2 :: t).head? := by
          simp only [select_build_job]
          rw [← hMeq]
        refine ⟨?_, ?_, ?_, ?_⟩
        · intro hE
          rw [hs, if_pos hE]
        · intro hE hP
          rw [hs, if_neg (by simp [hE]), if_pos hP]
        · intro hE hP hS
          rw [hs, if_neg (by simp [hE]), if_neg (by simp [hP]), if_pos hS]
        · intro hE hP hS
          rw [hs, if_neg (by simp [hE]), if_neg (by simp [hP]), if_neg (by simp [hS])]

/-- C3 witness: over the two build jobs `test-collateral-eurex-build` and
`test-collateral-eurex-report-build` with query `"eurex"`, both contain
the query, neither matches exactly, both start with
`"test-collateral-eurex"`, and the first of the narrowed list,
`test-collateral-eurex-build`, is selected. -/
theorem job_mode_selection_witness :
    select_build_job [strL "test-collateral-eurex-build",
      strL "test-collateral-eurex-report-build"] (strL "eurex") =
      some (strL "test-collateral-eurex-build") := by
  have h := ((job_mode_selection [strL "test-collateral-eurex-build",
      strL "test-collateral-eurex-report-build"] (strL "eurex")).2
    ([strL "test-collateral-eurex-build", strL "test-collateral-eurex-report-build"])
    (by decide) (by decide)).2.1 (by decide) (by decide)
  rw [h]
  decide

/-! Helper lemmas about the branch history. -/

theorem add_branch_eq_erase {n : Str} (l : List Str) (hd : lowerStr n ≠ devStr) :
    add_branch_to_cache n l = ((n :: l.erase n).take 50) := by
  rw [add_branch_to_cache, if_neg hd]
  by_cases hm : n ∈ l
  · simp only [if_pos hm]
  · simp only [if_neg hm, List.erase_of_not_mem hm]

theorem nodup_add_branch {n : Str} {l : List Str} (hd : lowerStr n ≠ devStr) (hnd : l.Nodup) :
    (add_branch_to_cache n l).Nodup := by
  rw [add_branch_eq_erase l hd]
  refine List.Nodup.sublist (List.take_sublist _ _) (List.nodup_cons.2 ⟨?_, hnd.erase n⟩)
  intro hmem
  exact ((hnd.mem_erase_iff).1 hmem).1 rfl

theorem take_append_take (a b : List Str) (k : Nat) :
    (a ++ b.take k).take k = (a ++ b).take k := by
  rw [List.take_append_eq_append_take, List.take_append_eq_append_take, List.take_take,
    Nat.min_eq_left (Nat.sub_le k a.length)]

theorem touch_seq_general : ∀ (ns acc : List Str), ns.Nodup →
    (∀ n ∈ ns, lowerStr n ≠ devStr) → (∀ n ∈ ns, n ∉ acc) → acc.length ≤ 50 →
    touch_seq ns acc = (ns.reverse ++ acc).take 50 := by
  intro ns
  induction ns with
  | nil =>
    intro acc _ _ _ hlen
    simp only [touch_seq, List.foldl_nil, List.reverse_nil, List.nil_append]
    exact (List.take_of_length_le hlen).symm
  | cons n ns ih =>
    intro acc hnd hdev hacc hlen
    have hn : lowerStr n ≠ devStr := hdev n (by simp)
    have hnin : n ∉ acc := hacc n (by simp)
    have hstep : touch_seq (n :: ns) acc = touch_seq ns ((n :: acc).take 50) := by
      simp only [touch_seq, List.foldl_cons]
      rw [add_branch_eq_erase acc hn, List.erase_of_not_mem hnin]
    rw [hstep, ih ((n :: acc).take 50) (List.nodup_cons.1 hnd).2
      (fun m hm => hdev m (by simp [hm]))
      (fun m hm hmem => by
        have hm' : m ∈ n :: acc := (List.take_sublist _ _).subset hmem
        rcases List.mem_cons.1 hm' with rfl | hm'
        · exact (List.nodup_cons.1 hnd).1 hm
        · exact hacc m (by simp [hm]) hm')
      (by rw [List.length_take]; exact min_le_left _ _)]
    rw [take_append_take, List.reverse_cons, List.append_assoc, List.singleton_append]

/-! Claim theorems: branch history. -/

/-- C7: the Branch History invariants (length at most 50, no entry equal
to `"dev"` case-insensitively, no duplicates) are preserved by every
`add_branch_to_cache`, and touching `"dev"` in any letter casing leaves
the history unchanged. -/
theorem branch_history_invariants (l : List Str) (n : Str) :
    (lowerStr n = devStr → add_branch_to_cache n l = l)
  ∧ (BranchInv l → BranchInv (add_branch_to_cache n l)) := by
  constructor
  · intro h
    rw [add_branch_to_cache, if_pos h]
  · rintro ⟨hlen, hdev, hnd⟩
    by_cases hd : lowerStr n = devStr
    · rw [add_branch_to_cache, if_pos hd]
      exact ⟨hlen, hdev, hnd⟩
    · refine ⟨?_, ?_, nodup_add_branch hd hnd⟩
      · rw [add_branch_eq_erase l hd, List.length_take]
        exact min_le_left _ _
      · intro b hb
        rw [add_branch_eq_erase l hd] at hb
        have hb' : b ∈ n :: l.erase n := (List.take_sublist _ _).subset hb
        rcases List.mem_cons.1 hb' with rfl | hb'
        · exact hd
        · exact hdev b (List.mem_of_mem_erase hb')

/-- C7 witness: `touch("DEV")` is a no-op on the history `["main"]`, and
touching `"feature"` preserves the invariants. -/
theorem branch_history_invariants_witness :
    add_branch_to_cache (strL "DEV") [strL "main"] = [strL "main"]
  ∧ BranchInv (add_branch_to_cache (strL "feature") [strL "main"]) :=
  ⟨(branch_history_invariants [strL "main"] (strL "DEV")).1 (by decide),
   (branch_history_invariants [strL "main"] (strL "feature")).2 (by decide)⟩

/-- C8: `add_branch_to_cache` of a non-`"dev"` name erases the
case-sensitively equal occurrence, inserts at the front and truncates to
the first 50 entries; touching a sequence of distinct non-`"dev"` names
starting from the empty history leaves the most recently touched names,
most recent first, capped at 50 — in particular 51 distinct names leave
exactly 50 — and touching a name twice in a row is the same as touching
it once, leaving it at the front with no duplicates. -/
theorem branch_history_touch :
    (∀ (n : Str) (l : List Str), lowerStr n ≠ devStr →
      add_branch_to_cache n l = (n :: l.erase n).take 50)
  ∧ (∀ ns : List Str, ns.Nodup → (∀ n ∈ ns, lowerStr n ≠ devStr) →
      touch_seq ns [] = ns.reverse.take 50)
  ∧ (∀ ns : List Str, ns.Nodup → (∀ n ∈ ns, lowerStr n ≠ devStr) → ns.length = 51 →
      (touch_seq ns []).length = 50)
  ∧ (∀ (n : Str) (l : List Str), lowerStr n ≠ devStr →
      add_branch_to_cache n (add_branch_to_cache n l) = add_branch_to_cache n l)
  ∧ (∀ (n : Str) (l : List Str), lowerStr n ≠ devStr → l.Nodup →
      (add_branch_to_cache n l).head? = some n ∧ (add_branch_to_cache n l).Nodup) := by
  have h50 : (50 : Nat) = 49 + 1 := rfl
  have hseq : ∀ ns : List Str, ns.Nodup → (∀ n ∈ ns, lowerStr n ≠ devStr) →
      touch_seq ns [] = ns.reverse.take 50 := by
    intro ns hnd hdev
    rw [touch_seq_general ns [] hnd hdev (by simp) (by simp), List.append_nil]
  refine ⟨fun n l hd => add_branch_eq_erase l hd, hseq, ?_, ?_, ?_⟩
  · intro ns hnd hdev h51
    rw [hseq ns hnd hdev, List.length_take, List.length_reverse, h51]
    decide
  · intro n l hd
    rw [add_branch_eq_erase l hd, h50, List.take_succ_cons,
      add_branch_eq_erase _ hd, List.erase_cons_head, List.take_succ_cons, List.take_take]
    rfl
  · intro n l hd hnd
    constructor
    · rw [add_branch_eq_erase l hd, h50, List.take_succ_cons]
      rfl
    · exact nodup_add_branch hd hnd

/-- C8 witness: 51 distinct names (runs of `a` of lengths 1 to 51)
touched in sequence leave the 50 most recent, most recent first, of
length exactly 50; and a double touch equals a single touch. -/
theorem branch_history_touch_witness :
    touch_seq ((List.range 51).map fun i => List.replicate (i + 1) 'a') [] =
      ((List.range 51).map fun i => List.replicate (i + 1) 'a').reverse.take 50
  ∧ (touch_seq ((List.range 51).map fun i => List.replicate (i + 1) 'a') []).length = 50
  ∧ add_branch_to_cache (strL "x") (add_branch_to_cache (strL "x") []) =
      add_branch_to_cache (strL "x") [] :=
  ⟨branch_history_touch.2.1 _ (by decide) (by decide),
   branch_history_touch.2.2.1 _ (by decide) (by decide) (by decide),
   branch_history_touch.2.2.2.1 (strL "x") [] (by decide)⟩

/-! Claim theorems: jobs cache. -/

/-- C9 counterexample: the claim says a record that exists but cannot be
read gives `None` (a cache miss) rather than raising, but the `except`
clause of `load_jobs_cache` (test_collateral.py line 81) catches only
`JSONDecodeError`, `KeyError` and `ValueError`: the `OSError` raised by
`open()` on an existing unreadable file propagates, so the load raises
instead of returning `None`. -/
theorem jobs_cache_claim_counterexample :
    load_jobs_cache (JobsStore.unreadable : JobsStore Nat) 0 = LoadResult.raised
  ∧ (LoadResult.raised : LoadResult Nat) ≠ LoadResult.loaded none :=
  ⟨rfl, by decide⟩

/-- C9 amended: `load_jobs_cache` returns the stored payload iff a
readable, parseable record exists whose age is at most the 1440-minute
ttl; a missing record, a record whose parsing raises one of the caught
`JSONDecodeError` / `KeyError` / `ValueError`, and a record older than
the ttl give `None` (a cache miss); but a record the process cannot
open makes the load raise an uncaught `OSError` instead of returning
`None`. A `get` immediately after `put` returns the stored payload, and
a `get` after time advances beyond the ttl returns `None`. -/
theorem jobs_cache_ttl {α : Type} (st : JobsStore α) (now : Int) :
    (∀ p : α, load_jobs_cache st now = LoadResult.loaded (some p) ↔
      ∃ t, st = JobsStore.record t p ∧ now - t ≤ CACHE_DURATION_MINUTES)
  ∧ load_jobs_cache (JobsStore.missing : JobsStore α) now = LoadResult.loaded none
  ∧ load_jobs_cache (JobsStore.unparseable : JobsStore α) now = LoadResult.loaded none
  ∧ load_jobs_cache (JobsStore.unreadable : JobsStore α) now = LoadResult.raised
  ∧ (∀ jobs : α,
      load_jobs_cache (save_jobs_cache jobs now) now = LoadResult.loaded (some jobs))
  ∧ (∀ (jobs : α) (d : Int), CACHE_DURATION_MINUTES < d →
      load_jobs_cache (save_jobs_cache jobs now) (now + d) = LoadResult.loaded none) := by
  refine ⟨?_, rfl, rfl, rfl, ?_, ?_⟩
  · intro p
    constructor
    · intro h
      cases st with
      | missing => simp [load_jobs_cache] at h
      | unreadable => simp [load_jobs_cache] at h
      | unparseable => simp [load_jobs_cache] at h
      | record t jobs =>
        by_cases hte : CACHE_DURATION_MINUTES < now - t
        · rw [load_jobs_cache, if_pos hte] at h
          exact absurd h (by simp)
        · rw [load_jobs_cache, if_neg hte] at h
          refine ⟨t, ?_, le_of_not_lt hte⟩
          simp only [LoadResult.loaded.injEq, Option.some.injEq] at h
          rw [h]
    · rintro ⟨t, rfl, hle⟩
      rw [load_jobs_cache, if_neg (not_lt.2 hle)]
  · intro jobs
    rw [save_jobs_cache, load_jobs_cache, if_neg (by simp [CACHE_DURATION_MINUTES])]
  · intro jobs d hd
    rw [save_jobs_cache, load_jobs_cache, if_pos (by omega)]

/-- C9 witness: a `put` at time 0 of payload `7` is returned by a `get`
at time 0 and missed by a `get` at time 1441 (one minute past the
24-hour ttl). -/
theorem jobs_cache_ttl_witness :
    load_jobs_cache (save_jobs_cache (7 : Nat) 0) 0 = LoadResult.loaded (some 7)
  ∧ load_jobs_cache (save_jobs_cache (7 : Nat) 0) (0 + 1441) = LoadResult.loaded none :=
  ⟨(jobs_cache_ttl (save_jobs_cache (7 : Nat) 0) 0).2.2.2.2.1 7,
   (jobs_cache_ttl (save_jobs_cache (7 : Nat) 0) 0).2.2.2.2.2 7 1441 (by decide)⟩

/-! Helper lemmas about removeAll. -/

theorem isPrefixOf_eq_true : ∀ {a b : Str}, a.isPrefixOf b = true ↔ a <+: b := by
  intro a
  induction a with
  | nil => intro b; simp [List.isPrefixOf]
  | cons x xs ih =>
    intro b
    cases b with
    | nil => simp [List.isPrefixOf]
    | cons y ys =>
      simp only [List.isPrefixOf, Bool.and_eq_true, beq_iff_eq, List.cons_prefix_cons]
      exact and_congr Iff.rfl ih

theorem isInfix_cons_extend {pat rest : Str} {c : Char} (h : pat <:+: rest) :
    pat <:+: c :: rest := by
  obtain ⟨s, t, hst⟩ := h
  exact ⟨c :: s, t, by rw [← hst]; rfl⟩

theorem prefix_short_infix_dropLast {a b : Str} (hp : a <+: b) (hlt : a.length < b.length) :
    a <:+: b.dropLast := by
  obtain ⟨t, rfl⟩ := hp
  have ht : t ≠ [] := by
    intro h
    rw [h] at hlt
    simp at hlt
  rw [List.dropLast_append_of_ne_nil a ht]
  exact ⟨[], t.dropLast, by simp⟩

theorem removeAllAux_nil (pat : Str) (n : Nat) : removeAllAux pat n [] = [] := by
  cases n <;> rfl

theorem removeAllAux_cons (pat : Str) (n : Nat) (c : Char) (rest : Str) :
    removeAllAux pat (n + 1) (c :: rest) =
      if !pat.isEmpty && pat.isPrefixOf (c :: rest) then
        removeAllAux pat n (List.drop (pat.length - 1) rest)
      else c :: removeAllAux pat n rest := rfl

theorem removeAllAux_congr (pat : Str) : ∀ (n m : Nat) (s : Str),
    s.length ≤ n → s.length ≤ m → removeAllAux pat n s = removeAllAux pat m s := by
  intro n
  induction n with
  | zero =>
    intro m s hn _
    rw [List.length_eq_zero.1 (Nat.le_zero.1 hn), removeAllAux_nil, removeAllAux_nil]
  | succ n ih =>
    intro m s hn hm
    cases s with
    | nil => rw [removeAllAux_nil, removeAllAux_nil]
    | cons c rest =>
      cases m with
      | zero => simp at hm
      | succ m' =>
        have hrn : rest.length ≤ n := by simpa using hn
        have hrm : rest.length ≤ m' := by simpa using hm
        rw [removeAllAux_cons, removeAllAux_cons]
        by_cases hcond : (!pat.isEmpty && pat.isPrefixOf (c :: rest)) = true
        · rw [if_pos hcond, if_pos hcond]
          have hd : (List.drop (pat.length - 1) rest).length ≤ rest.length := by
            rw [List.length_drop]
            exact Nat.sub_le _ _
          exact ih m' _ (le_trans hd hrn) (le_trans hd hrm)
        · rw [if_neg hcond, if_neg hcond, ih m' rest hrn hrm]

theorem removeAllAux_eq_removeAll {pat : Str} {n : Nat} {s : Str} (h : s.length ≤ n) :
    removeAllAux pat n s = removeAll pat s :=
  removeAllAux_congr pat n s.length s h le_rfl

theorem removeAll_not_infix {pat : Str} : ∀ {s : Str}, ¬ pat <:+: s → removeAll pat s = s := by
  suffices aux : ∀ (n : Nat) (s : Str), s.length ≤ n → ¬ pat <:+: s → removeAllAux pat n s = s by
    intro s h
    exact aux s.length s le_rfl h
  intro n
  induction n with
  | zero =>
    intro s hn _
    rw [List.length_eq_zero.1 (Nat.le_zero.1 hn), removeAllAux_nil]
  | succ n ih =>
    intro s hn h
    cases s with
    | nil => exact removeAllAux_nil _ _
    | cons c rest =>
      have hnp : pat.isPrefixOf (c :: rest) ≠ true := by
        intro hp
        obtain ⟨t, ht⟩ := isPrefixOf_eq_true.1 hp
        exact h ⟨[], t, by rw [← ht]; rfl⟩
      rw [removeAllAux_cons, if_neg (by simp [hnp]),
        ih rest (by simpa using hn) fun hi => h (isInfix_cons_extend hi)]

theorem removeAll_cons_self {pat : Str} (s : Str) (hne : pat ≠ []) :
    removeAll pat (pat ++ s) = removeAll pat s := by
  cases pat with
  | nil => exact absurd rfl hne
  | cons a pr =>
    have h1 : removeAll (a :: pr) ((a :: pr) ++ s) =
        removeAllAux (a :: pr) ((pr ++ s).length + 1) (a :: (pr ++ s)) := rfl
    have hc : (!(a :: pr).isEmpty && (a :: pr).isPrefixOf (a :: (pr ++ s))) = true := by
      simp only [Bool.and_eq_true]
      exact ⟨rfl, isPrefixOf_eq_true.2 ⟨s, rfl⟩⟩
    rw [h1, removeAllAux_cons, if_pos hc]
    have hdrop : List.drop ((a :: pr).length - 1) (pr ++ s) = s := by
      have hl : (a :: pr).length - 1 = pr.length := by simp
      rw [hl, List.drop_left]
    rw [hdrop]
    exact removeAllAux_eq_removeAll (by rw [List.length_append]; exact Nat.le_add_left _ _)

theorem removeAll_suffix_self {pat : Str} (hne : pat ≠ []) : ∀ (r : Str),
    ¬ pat <:+: (r ++ pat).dropLast → removeAll pat (r ++ pat) = r := by
  intro r
  induction r with
  | nil =>
    intro _
    have h0 := removeAll_cons_self ([] : Str) hne
    rw [List.append_nil] at h0
    rw [List.nil_append, h0]
    rfl
  | cons c r' ih =>
    intro h
    have hne2 : r' ++ pat ≠ [] := fun hnil => hne (List.append_eq_nil.1 hnil).2
    have hnp : pat.isPrefixOf (c :: (r' ++ pat)) ≠ true := by
      intro hp
      apply h
      apply prefix_short_infix_dropLast (isPrefixOf_eq_true.1 hp)
      simp only [List.length_cons, List.length_append]
      omega
    have hih : ¬ pat <:+: (r' ++ pat).dropLast := by
      intro hi
      apply h
      rw [show (c :: r') ++ pat = c :: (r' ++ pat) from rfl,
        List.dropLast_cons_of_ne_nil hne2]
      exact isInfix_cons_extend hi
    have h1 : removeAll pat ((c :: r') ++ pat) =
        removeAllAux pat ((r' ++ pat).length + 1) (c :: (r' ++ pat)) := rfl
    rw [h1, removeAllAux_cons, if_neg (by simp [hnp]), removeAllAux_eq_removeAll le_rfl, ih hih]

/-! Claim theorems: service extractor. -/

/-- C5: when at least one catalog entry occurs as a substring of the job
name, `extract_service` returns the longest such entry, ties broken by
first occurrence in catalog order (Python `max(matched, key=len)` keeps
the first maximum). -/
theorem extract_service_longest (jobName : Str) (catalog : List Str)
    (h : catalog.filter (fun s => decide (s <:+: jobName)) ≠ []) :
    FirstMaxLen (extract_service jobName catalog)
      (catalog.filter (fun s => decide (s <:+: jobName))) := by
  cases hm : catalog.filter (fun s => decide (s <:+: jobName)) with
  | nil => exact absurd hm h
  | cons m ms =>
    have he : extract_service jobName catalog = pyMax m ms := by
      simp only [extract_service, hm]
    rw [he]
    exact pyMax_firstMaxLen ms m

/-- C5 witness: `extract_service "test-collateral-eurex-build"
["eurex", "eur"]` — both entries occur in the job name and the longest,
`"eurex"`, wins over its substring `"eur"`. -/
theorem extract_service_longest_witness :
    FirstMaxLen (extract_service (strL "test-collateral-eurex-build") [strL "eurex", strL "eur"])
      ([strL "eurex", strL "eur"].filter
        (fun s => decide (s <:+: strL "test-collateral-eurex-build")))
  ∧ extract_service (strL "test-collateral-eurex-build") [strL "eurex", strL "eur"] =
      strL "eurex" :=
  ⟨extract_service_longest (strL "test-collateral-eurex-build") [strL "eurex", strL "eur"]
    (by decide), by decide⟩

/-- C4 counterexample: the claim states that when no catalog entry occurs
in the job name and the prefix or the suffix is absent, the job name is
returned unchanged, and that when both are present exactly the leading
prefix and the trailing suffix are stripped. Both parts fail on the code,
which tests only the prefix and then removes EVERY occurrence of
`"test-collateral-"` and of `"-build"` (Python `str.replace`):
`"test-collateral-foo"` (suffix absent) becomes `"foo"` instead of
staying unchanged, and `"test-collateral-a-build-b-build"` becomes
`"a-b"` instead of `"a-build-b"`. -/
theorem extract_service_claim_counterexample :
    ¬ (strL "eurex" <:+: strL "test-collateral-foo")
  ∧ (tcPrefix <+: strL "test-collateral-foo")
  ∧ ¬ (buildSuffix <:+ strL "test-collateral-foo")
  ∧ extract_service (strL "test-collateral-foo") [strL "eurex"] = strL "foo"
  ∧ strL "foo" ≠ strL "test-collateral-foo"
  ∧ ¬ (strL "eurex" <:+: strL "test-collateral-a-build-b-build")
  ∧ (tcPrefix <+: strL "test-collateral-a-build-b-build")
  ∧ (buildSuffix <:+ strL "test-collateral-a-build-b-build")
  ∧ extract_service (strL "test-collateral-a-build-b-build") [strL "eurex"] = strL "a-b"
  ∧ strL "a-b" ≠ strL "a-build-b" := by
  refine ⟨by decide, by decide, by decide, by decide, by decide,
    by decide, by decide, by decide, by decide, by decide⟩

/-- C4 amended: when no catalog entry occurs as a substring of the job
name, then (i) a job name that does not start with `"test-collateral-"`
is returned unchanged (even when it ends in `"-build"`), and (ii) a job
name that does start with `"test-collateral-"` has every occurrence of
`"test-collateral-"` and then every occurrence of `"-build"` removed —
so when the job name is `"test-collateral-" ++ r ++ "-build"` and
neither literal occurs anywhere else, the result is exactly `r`. -/
theorem extract_service_fallback (jobName : Str) (catalog : List Str)
    (hnm : catalog.filter (fun s => decide (s <:+: jobName)) = []) :
    (¬ tcPrefix <+: jobName → extract_service jobName catalog = jobName)
  ∧ (∀ r : Str, jobName = tcPrefix ++ (r ++ buildSuffix) →
      ¬ tcPrefix <:+: (r ++ buildSuffix) →
      ¬ buildSuffix <:+: (r ++ buildSuffix).dropLast →
      extract_service jobName catalog = r) := by
  have hm : extract_service jobName catalog =
      if tcPrefix <+: jobName then removeAll buildSuffix (removeAll tcPrefix jobName)
      else jobName := by
    simp only [extract_service, hnm]
  constructor
  · intro hpre
    rw [hm, if_neg hpre]
  · intro r hshape h1 h2
    subst hshape
    rw [hm, if_pos ⟨r ++ buildSuffix, rfl⟩,
      removeAll_cons_self (r ++ buildSuffix) (by decide), removeAll_not_infix h1,
      removeAll_suffix_self (by decide) r h2]

/-- C4 witness: `extract_service "test-collateral-unknownthing-build"
["eurex"]` strips the prefix and the suffix and returns
`"unknownthing"`. -/
theorem extract_service_fallback_witness :
    extract_service (strL "test-collateral-unknownthing-build") [strL "eurex"] =
      strL "unknownthing" :=
  (extract_service_fallback (strL "test-collateral-unknownthing-build") [strL "eurex"]
    (by decide)).2 (strL "unknownthing") (by decide) (by decide) (by decide)
